import Mathlib

/-!
Verification development for the `tpe` crate (Tree-structured Parzen Estimator
hyperparameter optimizer).

Shallow embedding conventions:
* `f64` is modelled by the inductive type `F` (NaN, the two infinities, and
  finite values represented by rationals).  Arithmetic on finite values is
  ideal (no overflow/rounding): the claims under study are about branching
  structure, ordering, counting and list manipulation, none of which depend
  on rounding.
* The parts of the algorithm that consume finite, pre-filtered numbers
  (estimator builders, sampling, splitting) are embedded over `ℚ`; the
  optimizer filters params with `is_finite` before handing them over, exactly
  as the Rust code does.
* Randomness is modelled by explicit streams of draws: the Parzen sampler's
  rejection loop consumes a stream of proposed values (the component choice
  and normal draw are abstracted into the proposed value; the acceptance test
  `range.contains` is reproduced exactly), and the histogram sampler consumes
  a stream of numbers fed to the weighted-index selection.
* The real-valued log-density computations of the Parzen estimator
  (`log_pdf`, `logsumexp`, `p_accept`) are embedded over `ℝ`.
* Fallible code returns `Except`/`Option`; a Rust panic (out-of-bounds index)
  is modelled by `none`.
-/

/-- Model of `f64`: NaN, infinities, and ideal finite values. -/
inductive F where
  | nan : F
  | inf : F
  | ninf : F
  | fin : ℚ → F
deriving DecidableEq, Repr

namespace F

/-- `f64::is_nan`. -/
def isNan : F → Bool
  | .nan => true
  | _ => false

/-- `f64::is_finite`. -/
def isFinite : F → Bool
  | .fin _ => true
  | _ => false

/-- IEEE-754 subtraction on the model (`a - b`); finite arithmetic is ideal. -/
def sub : F → F → F
  | .nan, _ => .nan
  | _, .nan => .nan
  | .inf, .inf => .nan
  | .inf, _ => .inf
  | .ninf, .ninf => .nan
  | .ninf, _ => .ninf
  | .fin _, .inf => .ninf
  | .fin _, .ninf => .inf
  | .fin a, .fin b => .fin (a - b)

/-- IEEE-754 `<`: any comparison involving NaN is false. -/
def ltB : F → F → Bool
  | .nan, _ => false
  | _, .nan => false
  | .ninf, .ninf => false
  | .ninf, _ => true
  | _, .ninf => false
  | .inf, _ => false
  | _, .inf => true
  | .fin a, .fin b => decide (a < b)

/-- IEEE-754 `<=`: any comparison involving NaN is false. -/
def leB : F → F → Bool
  | .nan, _ => false
  | _, .nan => false
  | .ninf, _ => true
  | _, .ninf => false
  | _, .inf => true
  | .inf, _ => false
  | .fin a, .fin b => decide (a ≤ b)

/-- IEEE-754 `>=` (`a >= b` is `b <= a`). -/
def geB (a b : F) : Bool := leB b a

/-- The total order used by the `ordered_float::OrderedFloat` wrapper:
`-inf < finite values < +inf < NaN`. -/
def keyLe : F → F → Bool
  | _, .nan => true
  | .nan, _ => false
  | .ninf, _ => true
  | _, .ninf => false
  | _, .inf => true
  | .inf, _ => false
  | .fin a, .fin b => decide (a ≤ b)

/-- Extract the rational value of a finite `F`. -/
def toFinite : F → Option ℚ
  | .fin q => some q
  | _ => none

end F

/-- `RangeError` from `src/range.rs`. -/
inductive RangeError where
  | nonFiniteRange : RangeError
  | emptyRange : RangeError
deriving DecidableEq, Repr

/-- The `Range` struct from `src/range.rs`: raw `f64` endpoints. -/
structure Range where
  start : F
  endv : F
deriving DecidableEq, Repr

/-- `Range::new` from `src/range.rs`:
fails with `NonFiniteRange` when `end - start` is not finite, then with
`EmptyRange` when `start.partial_cmp(&end) != Some(Less)` (i.e. not
`start < end`, NaN comparisons included). -/
def Range.new (start endv : F) : Except RangeError Range :=
  if !(F.sub endv start).isFinite then
    .error .nonFiniteRange
  else if !(F.ltB start endv) then
    .error .emptyRange
  else
    .ok ⟨start, endv⟩

/-- A validated parameter range with rational endpoints.  `Range::new` only
succeeds on finite endpoints (theorem `Range.new_ok_finite`), so the rest of
the embedding carries the two finite endpoints as rationals. -/
structure RangeQ where
  start : ℚ
  endv : ℚ
deriving DecidableEq, Repr

/-- `Range::width`: `end - start`. -/
def RangeQ.width (r : RangeQ) : ℚ := r.endv - r.start

/-- `Range::contains` on a finite point: `start <= v && v < end`. -/
def RangeQ.containsQ (r : RangeQ) (v : ℚ) : Bool := decide (r.start ≤ v) && decide (v < r.endv)

/-- `Range::contains` on a raw `f64` point (`start <= v && v < end`; false for
NaN and for the infinities since the endpoints are finite). -/
def RangeQ.containsF (r : RangeQ) (v : F) : Bool :=
  match v with
  | .fin q => r.containsQ q
  | _ => false

/-- The `Trial` struct from `src/lib.rs`. -/
structure Trial where
  param : F
  value : F
deriving DecidableEq, Repr

/-- `TellError` from `src/lib.rs`. -/
inductive TellError where
  | paramOutOfRange : F → RangeQ → TellError
  | nanValue : TellError
deriving DecidableEq, Repr

/-- The two density-estimation strategies (`DefaultEstimatorBuilder`). -/
inductive EstimatorKind where
  | parzen : EstimatorKind
  | histogram : EstimatorKind
deriving DecidableEq, Repr

/-- The `TpeOptimizer` struct from `src/lib.rs` (the estimator builder is one
of the two strategies of `DefaultEstimatorBuilder`). -/
structure TpeOptimizer where
  param_range : RangeQ
  estimator_builder : EstimatorKind
  trials : List Trial
  is_sorted : Bool
  gamma : ℚ
  candidates : ℕ
deriving DecidableEq, Repr

/-- `TpeOptimizer::tell`: the returned pair is the state after the call and
the error, if any (the Rust method mutates `self` and returns
`Result<(), TellError>`; on the two early-return error paths `self` is left
untouched). -/
def TpeOptimizer.tell (s : TpeOptimizer) (param value : F) : TpeOptimizer × Option TellError :=
  if value.isNan then
    (s, some .nanValue)
  else if !(param.isNan || s.param_range.containsF param) then
    (s, some (.paramOutOfRange param s.param_range))
  else
    ({ s with trials := s.trials ++ [⟨param, value⟩], is_sorted := false }, none)

/-- The comparison used by `ask`'s `sort_by_key(|t| OrderedFloat(t.value))`. -/
def trialLe (a b : Trial) : Bool := F.keyLe a.value b.value

/-- The stable sort of the trial list performed by `ask` (Rust's
`sort_by_key` is a stable sort; a stable sort under a fixed total preorder is
a unique function, here realized by `List.mergeSort`). -/
def sortTrials (l : List Trial) : List Trial := l.mergeSort trialLe

/-- The state mutation performed at the start of `TpeOptimizer::ask`:
if the cached order is stale, sort the trial list in place by value and set
the flag. -/
def TpeOptimizer.askSortStep (s : TpeOptimizer) : TpeOptimizer :=
  if s.is_sorted then s else { s with trials := sortTrials s.trials, is_sorted := true }

/-- `TpeOptimizer::decide_split_point`: `(trials.len() as f64 * gamma).ceil() as usize`. -/
def TpeOptimizer.decide_split_point (s : TpeOptimizer) : ℕ :=
  (⌈(s.trials.length : ℚ) * s.gamma⌉).toNat

/-- The superior/inferior split computed by `ask`: sort (if stale), then
`split_at(split_point)` on the sorted trials. -/
def TpeOptimizer.askGroups (s : TpeOptimizer) : List Trial × List Trial :=
  let s' := s.askSortStep
  let sp := s'.decide_split_point
  (s'.trials.take sp, s'.trials.drop sp)

/-- The builder input extracted from a group of trials:
`.map(|t| t.param).filter(|p| p.is_finite())`. -/
def finiteParams (ts : List Trial) : List ℚ := ts.filterMap (fun t => t.param.toFinite)

/-- A sample optimizer state used to instantiate hypothesis-bearing theorems. -/
def sampleState : TpeOptimizer :=
  { param_range := ⟨0, 10⟩
    estimator_builder := .parzen
    trials := []
    is_sorted := false
    gamma := 1 / 10
    candidates := 24 }

/-- The state-mutating operations of the optimizer's public API: a `tell`
call (with its two `f64` arguments) and the trial-list mutation performed by
`ask` (the estimator construction and sampling do not touch the trial list). -/
inductive Op where
  | tellOp : F → F → Op
  | askOp : Op
deriving DecidableEq, Repr

/-- One optimizer API call acting on the state. -/
def stepOp (s : TpeOptimizer) : Op → TpeOptimizer
  | .tellOp p v => (s.tell p v).1
  | .askOp => s.askSortStep

/-- A sequence of optimizer API calls acting on the state. -/
def runOps (s : TpeOptimizer) (ops : List Op) : TpeOptimizer :=
  ops.foldl stepOp s

/-- `tell`'s acceptance condition (neither early-return error fires). -/
def tellAccepts (r : RangeQ) (p v : F) : Bool := !v.isNan && (p.isNan || r.containsF p)

/-- The trials appended by the successful `tell` calls of an operation
sequence, in call order (`tell`'s acceptance test depends only on the
immutable range, never on the trial list). -/
def toldTrials (r : RangeQ) : List Op → List Trial
  | [] => []
  | .askOp :: ops => toldTrials r ops
  | .tellOp p v :: ops =>
    if tellAccepts r p v then ⟨p, v⟩ :: toldTrials r ops else toldTrials r ops

/-- A sample state with three told trials. -/
def sampleState3 : TpeOptimizer :=
  { sampleState with
    trials := [⟨.fin 1, .fin 5⟩, ⟨.nan, .fin 2⟩, ⟨.fin 3, .fin 9⟩] }

/-- Rust's `Iterator::max_by_key` on a list: the element with the maximum
key; if several elements are equally maximum, the last one is returned. -/
def maxByKey {α K : Type _} [LinearOrder K] (f : α → K) : List α → Option α
  | [] => none
  | x :: xs => some (xs.foldl (fun best y => if f best ≤ f y then y else best) x)

/-- The candidate-selection step of `ask` (lib.rs lines 188-200): map every
candidate to the pair `(ei, candidate)` where `ei` is the superior estimator's
log-density minus the inferior estimator's log-density at the candidate, take
`max_by_key` on `ei`, and return the winning candidate.  The two log-density
functions are parameters in an arbitrary linear order: the ordering structure
of the selection — not the numeric values — is what the claims govern. -/
def askPick {K : Type} [LinearOrder K] [Sub K]
    (supLP infLP : ℚ → K) (cands : List ℚ) : Option ℚ :=
  (maxByKey (fun p => p.1) (cands.map (fun c => (supLP c - infLP c, c)))).map Prod.snd

/-- The accepted draws of the Parzen sampler's rejection loop, in order: the
component choice and normal draw are abstracted into a stream of proposed
values; the loop accepts exactly the proposals satisfying `range.contains`. -/
def parzenAccepted (r : RangeQ) (proposals : List ℚ) : List ℚ :=
  proposals.filter (fun d => r.containsQ d)

/-- Modelled `ask` for the Parzen strategy: take `candidates` accepted draws
from the superior estimator's sampler stream, then select by the EI score. -/
def TpeOptimizer.askParzen {K : Type} [LinearOrder K] [Sub K]
    (supLP infLP : ℚ → K) (s : TpeOptimizer) (proposals : List ℚ) : Option ℚ :=
  askPick supLP infLP ((parzenAccepted s.param_range proposals).take s.candidates)

/-- A sample state with two requested candidates. -/
def sampleState1 : TpeOptimizer := { sampleState with candidates := 2 }

/-- `cardinality = range.width().ceil() as usize` (histogram.rs). -/
def RangeQ.cardinality (r : RangeQ) : ℕ := (⌈r.width⌉).toNat

/-- The bin index `x.floor() as usize`: Rust float-to-usize casts saturate,
so a negative floor lands on bin 0. -/
def floorBin (x : ℚ) : ℕ := (⌊x⌋).toNat

/-- One step of the histogram builder's loop:
`probabilities[x.floor() as usize] += weight`; the out-of-bounds panic is
modelled as `none`. -/
def histStep (weight : ℚ) (probs : List ℚ) (x : ℚ) : Option (List ℚ) :=
  if h : floorBin x < probs.length then
    some (probs.set (floorBin x) (probs.get ⟨floorBin x, h⟩ + weight))
  else none

/-- `HistogramEstimatorBuilder::build_density_estimator`: `cardinality =
ceil(width)` bins, `n = #samples + cardinality`, every bin starts at `1/n`
and each sample adds `1/n` to the bin at its floor. -/
def buildHistogram (r : RangeQ) (xs : List ℚ) : Option (List ℚ) :=
  let card := r.cardinality
  let n := xs.length + card
  let weight : ℚ := 1 / (n : ℚ)
  xs.foldlM (histStep weight) (List.replicate card weight)

/-- `HistogramEstimator::log_pdf`: `self.probabilities[x.floor() as usize]`
— a raw bin probability, not a logarithm (OOB panic modelled as `none`). -/
def histLogPdf (probs : List ℚ) (x : ℚ) : Option ℚ :=
  if h : floorBin x < probs.length then some (probs.get ⟨floorBin x, h⟩) else none

/-- `WeightedIndex::sample` given a uniform draw `u` from `[0, total)`:
scan the weights, subtracting each until the draw falls inside a bin
(a draw at or beyond the total lands on the last bin; the real sampler never
produces one). -/
def widx : List ℚ → ℚ → ℕ
  | [], _ => 0
  | [_], _ => 0
  | w :: w' :: ws, u => if u < w then 0 else widx (w' :: ws) (u - w) + 1

/-- Modelled `ask` for the Histogram strategy: build the superior histogram
from the superior group's finite params, draw `candidates` bin indices with
the weighted-index sampler from a stream of uniform draws, and select by the
EI score. -/
def TpeOptimizer.askHistogram {K : Type} [LinearOrder K] [Sub K]
    (supLP infLP : ℚ → K) (s : TpeOptimizer) (draws : List ℚ) : Option ℚ :=
  match buildHistogram s.param_range (finiteParams s.askGroups.1) with
  | none => none
  | some probs =>
    askPick supLP infLP ((draws.take s.candidates).map (fun u => ((widx probs u : ℕ) : ℚ)))

/-- A sample state configured for the histogram strategy over `[0, 2)`. -/
def sampleStateH : TpeOptimizer :=
  { param_range := ⟨0, 2⟩
    estimator_builder := .histogram
    trials := []
    is_sorted := false
    gamma := 1 / 10
    candidates := 1 }

/-- `max_stddev = range.width()` in `setup_stddev`. -/
def maxStddev (r : RangeQ) : ℚ := r.width

/-- `min_stddev = range.width() / 100f64.min(1.0 + n as f64)`. -/
def minStddev (r : RangeQ) (n : ℕ) : ℚ := r.width / min 100 (1 + (n : ℚ))

/-- The first loop of `setup_stddev`: each component's raw stddev is the
larger of the gaps to its left and right neighbours, with
`range.start`/`range.end` as virtual neighbours for the first and last
components. -/
def rawStddev (r : RangeQ) (means : List ℚ) (i : ℕ) : ℚ :=
  let prev := if i = 0 then r.start else means.getD (i - 1) 0
  let curr := means.getD i 0
  let next := if i + 1 < means.length then means.getD (i + 1) 0 else r.endv
  max (curr - prev) (next - curr)

/-- `ParzenEstimatorBuilder::setup_stddev` (the stddev list for a sorted mean
list): the neighbour-gap loop, then the boundary override forcing the first
and last components to the single adjacent inward gap when `n >= 2`, then the
clamp of every component into `[min_stddev, max_stddev]`. -/
def setupStddev (r : RangeQ) (means : List ℚ) : List ℚ :=
  let n := means.length
  let base := (List.range n).map (rawStddev r means)
  let adj :=
    if 2 ≤ n then
      (base.set 0 (means.getD 1 0 - means.getD 0 0)).set (n - 1)
        (means.getD (n - 1) 0 - means.getD (n - 2) 0)
    else base
  adj.map (fun sd => min (max sd (minStddev r n)) (maxStddev r))

/-- The `Bool` comparison used to sort the component means. -/
def qle (a b : ℚ) : Bool := decide (a ≤ b)

/-- `ParzenEstimatorBuilder::build_density_estimator`, mixture-shape part:
the component means are the samples plus the synthetic prior at the range
midpoint `(start + end) * 0.5`, sorted ascending; the stddevs are assigned by
`setup_stddev` (the `Vec<Normal>` is represented by the pair of its mean and
stddev columns). -/
def buildParzen (r : RangeQ) (xs : List ℚ) : List ℚ × List ℚ :=
  let means := (xs ++ [(r.start + r.endv) * (1 / 2)]).mergeSort qle
  (means, setupStddev r means)

/-- The per-component stddev formula asserted by the specification: the
larger of the two neighbour gaps (virtual boundary neighbours at the ends),
except that the first and last components are forced to the single adjacent
inward gap; written independently of the code's sequential updates. -/
def specStddev (r : RangeQ) (means : List ℚ) (i : ℕ) : ℚ :=
  let n := means.length
  if 2 ≤ n ∧ i = 0 then means.getD 1 0 - means.getD 0 0
  else if 2 ≤ n ∧ i = n - 1 then means.getD (n - 1) 0 - means.getD (n - 2) 0
  else
    max (means.getD i 0 - (if i = 0 then r.start else means.getD (i - 1) 0))
      ((if i + 1 < n then means.getD (i + 1) 0 else r.endv) - means.getD i 0)

/-- A parameter range with real endpoints, for the real-valued density
computations of the Parzen estimator. -/
structure RangeR where
  start : ℝ
  endv : ℝ

/-- The `Normal` struct of parzen.rs (a mean/stddev pair). -/
structure NormalR where
  mean : ℝ
  stddev : ℝ

/-- statrs `Normal::ln_pdf`: `(-0.5 * d * d) - ln(sqrt(2*pi)) - sigma.ln()`
with `d = (x - mu) / sigma`. -/
noncomputable def NormalR.ln_pdf (s : NormalR) (x : ℝ) : ℝ :=
  -(1 / 2) * ((x - s.mean) / s.stddev) * ((x - s.mean) / s.stddev)
    - Real.log (Real.sqrt (2 * Real.pi)) - Real.log s.stddev

/-- The normal density function whose `Iic`-integral is statrs'
`Normal::cdf`. -/
noncomputable def normalPdf (μ σ x : ℝ) : ℝ :=
  (Real.sqrt (2 * Real.pi) * σ)⁻¹ * Real.exp (-(x - μ) ^ 2 / (2 * σ ^ 2))

/-- statrs `Normal::cdf`, modelled as the integral of the density over
`(-inf, x]`. -/
noncomputable def NormalR.cdf (s : NormalR) (x : ℝ) : ℝ :=
  ∫ t in Set.Iic x, normalPdf s.mean s.stddev t

/-- `p_accept` as computed by `build_density_estimator` (parzen.rs lines
69-73): the average of `cdf(range.end) - cdf(range.start)` over the
components. -/
noncomputable def pAccept (samples : List NormalR) (r : RangeR) : ℝ :=
  (samples.map (fun s => s.cdf r.endv - s.cdf r.start)).sum / (samples.length : ℝ)

/-- `logsumexp` (parzen.rs lines 126-132): subtract the running maximum
before exponentiating, sum, take the log, and add the maximum back (the
empty case is the code's unreachable panic; 0 is junk). -/
noncomputable def logsumexp : List ℝ → ℝ
  | [] => 0
  | x :: xs =>
    Real.log (((x :: xs).map (fun a => Real.exp (a - xs.foldl max x))).sum) + xs.foldl max x

/-- The `ParzenEstimator` struct (density part): components and `p_accept`. -/
structure ParzenEstimatorR where
  samples : List NormalR
  p_accept : ℝ

/-- `ParzenEstimator::log_pdf` (parzen.rs lines 115-123): `weight = 1/n`;
each component contributes `component.ln_pdf(x) + ln(weight / p_accept)`;
the contributions are combined with `logsumexp`. -/
noncomputable def ParzenEstimatorR.log_pdf (e : ParzenEstimatorR) (x : ℝ) : ℝ :=
  logsumexp (e.samples.map (fun s =>
    s.ln_pdf x + Real.log ((1 / (e.samples.length : ℝ)) / e.p_accept)))

namespace F

theorem keyLe_trans (a b c : F) : keyLe a b → keyLe b c → keyLe a c := by
  cases a <;> cases b <;> cases c <;> simp [keyLe] <;> exact le_trans

theorem keyLe_total (a b : F) : keyLe a b || keyLe b a := by
  cases a <;> cases b <;> simp [keyLe, le_total]

@[simp] theorem isNan_eq_false (a : F) : a.isNan = false ↔ a ≠ .nan := by
  cases a <;> simp [isNan]

@[simp] theorem isNan_eq_true (a : F) : a.isNan = true ↔ a = .nan := by
  cases a <;> simp [isNan]

end F

/-- `Range::new` succeeds only on finite endpoints in ascending order. -/
theorem Range.new_ok_finite (s e : F) (r : Range) (h : Range.new s e = .ok r) :
    ∃ a b : ℚ, s = .fin a ∧ e = .fin b ∧ a < b := by
  unfold Range.new at h
  split_ifs at h with h1 h2
  cases s <;> cases e <;> simp_all [F.sub, F.isFinite, F.ltB]

/-- C3: `tell(param, value)` fails with `NanValue` iff `value` is NaN;
otherwise fails with `ParamOutOfRange` (carrying the offending param and the
range) iff `param` is not NaN and not contained in the range; otherwise it
succeeds, appending exactly one trial `{param, value}` and marking the cached
sort order stale.  `param = NaN` with a non-NaN value is always accepted. -/
theorem tell_spec (s : TpeOptimizer) (p v : F) :
    ((s.tell p v).2 = some .nanValue ↔ v.isNan = true) ∧
    ((s.tell p v).2 = some (.paramOutOfRange p s.param_range) ↔
      (v.isNan = false ∧ p.isNan = false ∧ s.param_range.containsF p = false)) ∧
    ((s.tell p v).2 = none ↔
      (v.isNan = false ∧ (p.isNan = true ∨ s.param_range.containsF p = true))) ∧
    ((s.tell p v).2 = none →
      (s.tell p v).1 = { s with trials := s.trials ++ [⟨p, v⟩], is_sorted := false }) ∧
    (p = .nan → v.isNan = false → (s.tell p v).2 = none) := by
  unfold TpeOptimizer.tell
  split_ifs with h1 h2 <;> simp_all <;> tauto

/-- Witness for `tell_spec`: the success path at a concrete state. -/
theorem tell_spec_witness :
    (sampleState.tell (.fin 3) (.fin 7)).1 =
      { sampleState with trials := [⟨.fin 3, .fin 7⟩], is_sorted := false } :=
  (tell_spec sampleState (.fin 3) (.fin 7)).2.2.2.1 (by decide)

/-- C10: whenever `tell` returns an error, the optimizer state (range, builder,
trials, cached-sort flag, gamma, candidates) is completely unchanged. -/
theorem tell_error_preserves_state (s : TpeOptimizer) (p v : F) (e : TellError)
    (h : (s.tell p v).2 = some e) : (s.tell p v).1 = s := by
  unfold TpeOptimizer.tell at *
  split_ifs at h ⊢ <;> simp_all

/-- Witness for `tell_error_preserves_state`: an out-of-range param at a
concrete state. -/
theorem tell_error_preserves_state_witness :
    (sampleState.tell (.fin 99) (.fin 1)).1 = sampleState :=
  tell_error_preserves_state sampleState (.fin 99) (.fin 1)
    (.paramOutOfRange (.fin 99) sampleState.param_range) (by decide)

/-- C8 counterexample: at `start = +inf`, `end = 5` the claim's clause
"when it fails, the error is `EmptyRange` if `start >= end`" is violated:
`start >= end` holds (and `start < end` fails), yet the code returns
`NonFiniteRange`, because the non-finite-span check runs first. -/
theorem rangeNew_emptyRange_counterexample :
    F.geB .inf (.fin 5) = true ∧ F.ltB .inf (.fin 5) = false ∧
    Range.new .inf (.fin 5) = .error .nonFiniteRange := ⟨rfl, rfl, rfl⟩

/-- C8 (amended): `Range::new(start, end)` fails iff `end - start` is
non-finite or `start < end` does not hold; the error is `NonFiniteRange`
iff `end - start` is not finite (this check takes precedence), and
`EmptyRange` iff `end - start` is finite and `start < end` does not hold. -/
theorem rangeNew_spec (s e : F) :
    ((∃ r, Range.new s e = .ok r) ↔
      ((F.sub e s).isFinite = true ∧ F.ltB s e = true)) ∧
    (Range.new s e = .error .nonFiniteRange ↔ (F.sub e s).isFinite = false) ∧
    (Range.new s e = .error .emptyRange ↔
      ((F.sub e s).isFinite = true ∧ F.ltB s e = false)) := by
  unfold Range.new
  split_ifs with h1 h2 <;> simp_all

theorem stepOp_param_range (s : TpeOptimizer) (op : Op) :
    (stepOp s op).param_range = s.param_range := by
  cases op with
  | tellOp p v =>
    simp only [stepOp, TpeOptimizer.tell]
    split_ifs <;> rfl
  | askOp =>
    simp only [stepOp, TpeOptimizer.askSortStep]
    split_ifs <;> rfl

theorem tell_accepts_true (s : TpeOptimizer) (p v : F)
    (h : tellAccepts s.param_range p v = true) :
    (s.tell p v).1 = { s with trials := s.trials ++ [⟨p, v⟩], is_sorted := false } := by
  unfold TpeOptimizer.tell
  unfold tellAccepts at h
  cases hv : v.isNan <;> cases hc : (p.isNan || s.param_range.containsF p) <;> simp_all

theorem tell_accepts_false (s : TpeOptimizer) (p v : F)
    (h : tellAccepts s.param_range p v = false) :
    (s.tell p v).1 = s := by
  unfold TpeOptimizer.tell
  unfold tellAccepts at h
  cases hv : v.isNan <;> cases hc : (p.isNan || s.param_range.containsF p) <;> simp_all

/-- C9 counterexample: the trial list does not remain in insertion order.
Telling values `2` then `1` and then calling `ask` leaves the trial list
sorted by value (`ask` sorts `self.trials` in place), not in insertion
order. -/
theorem trials_insertion_order_counterexample :
    (runOps sampleState
        [.tellOp (.fin 1) (.fin 2), .tellOp (.fin 2) (.fin 1), .askOp]).trials ≠
      sampleState.trials ++
        toldTrials sampleState.param_range
          [.tellOp (.fin 1) (.fin 2), .tellOp (.fin 2) (.fin 1), .askOp] := by
  norm_num [runOps, stepOp, TpeOptimizer.tell, toldTrials, tellAccepts, sampleState,
    TpeOptimizer.askSortStep, sortTrials, List.mergeSort, List.merge, trialLe,
    F.keyLe, F.isNan, RangeQ.containsF, RangeQ.containsQ]

/-- C9 (amended): across every sequence of `tell` and `ask` calls the trial
list is append-only as a multiset: trials are created by successful `tell`
calls (exactly one each), never mutated or removed; but `ask` reorders the
list in place (sorting it by value when the cached flag is stale), so the
list is a permutation of the told trials rather than literally in insertion
order; the `is_sorted` flag is the derived cache invalidated by insertion. -/
theorem trials_append_only (s : TpeOptimizer) (ops : List Op) :
    ((runOps s ops).trials).Perm (s.trials ++ toldTrials s.param_range ops) := by
  induction ops generalizing s with
  | nil => simp [runOps, toldTrials]
  | cons op ops ih =>
    have hstep : runOps s (op :: ops) = runOps (stepOp s op) ops := rfl
    have ih' := ih (stepOp s op)
    rw [stepOp_param_range s op] at ih'
    rw [hstep]
    cases op with
    | askOp =>
      have hperm : (stepOp s .askOp).trials.Perm s.trials := by
        simp only [stepOp, TpeOptimizer.askSortStep]
        split_ifs
        · exact List.Perm.refl _
        · exact List.mergeSort_perm s.trials trialLe
      exact ih'.trans (hperm.append_right _)
    | tellOp p v =>
      by_cases hacc : tellAccepts s.param_range p v = true
      · have h1 := tell_accepts_true s p v hacc
        simp only [stepOp] at ih' ⊢
        rw [h1] at ih' ⊢
        simpa [toldTrials, hacc, List.append_assoc] using ih'
      · have h1 := tell_accepts_false s p v (by simpa using hacc)
        simp only [stepOp] at ih' ⊢
        rw [h1] at ih' ⊢
        simpa [toldTrials, hacc] using ih'

theorem trialLe_trans (a b c : Trial) : trialLe a b → trialLe b c → trialLe a c :=
  F.keyLe_trans a.value b.value c.value

theorem trialLe_total (a b : Trial) : trialLe a b || trialLe b a :=
  F.keyLe_total a.value b.value

theorem askSortStep_trials_length (s : TpeOptimizer) :
    s.askSortStep.trials.length = s.trials.length := by
  unfold TpeOptimizer.askSortStep
  split_ifs <;> simp [sortTrials]

theorem askSortStep_gamma (s : TpeOptimizer) : s.askSortStep.gamma = s.gamma := by
  unfold TpeOptimizer.askSortStep
  split_ifs <;> rfl

theorem finiteParams_length (ts : List Trial) :
    (finiteParams ts).length = (ts.filter (fun t => t.param.isFinite)).length := by
  induction ts with
  | nil => rfl
  | cons t ts ih =>
    cases ht : t.param <;>
      simp [finiteParams, List.filterMap_cons, F.toFinite, F.isFinite, ht, ih,
        List.filter_cons] <;>
      simpa [finiteParams] using ih

theorem split_point_le_length (s : TpeOptimizer) (h1 : s.gamma ≤ 1) :
    s.decide_split_point ≤ s.trials.length := by
  unfold TpeOptimizer.decide_split_point
  have hmul : (s.trials.length : ℚ) * s.gamma ≤ (s.trials.length : ℚ) :=
    mul_le_of_le_one_right (by positivity) h1
  have hceil : ⌈(s.trials.length : ℚ) * s.gamma⌉ ≤ (s.trials.length : ℤ) := by
    calc ⌈(s.trials.length : ℚ) * s.gamma⌉ ≤ ⌈((s.trials.length : ℤ) : ℚ)⌉ := by
          exact_mod_cast Int.ceil_le_ceil hmul
      _ = (s.trials.length : ℤ) := Int.ceil_intCast _
  calc (⌈(s.trials.length : ℚ) * s.gamma⌉).toNat
      ≤ ((s.trials.length : ℤ)).toNat := Int.toNat_le_toNat hceil
    _ = s.trials.length := Int.toNat_natCast _

/-- C1: `ask` sorts the trial list ascending by objective value (stably) when
the cached order is stale (and reuses the list unchanged otherwise); the
split point is `ceil(gamma * n)` over the full trial count `n` (NaN-param
trials included); the superior group is the first `split_point` sorted
trials, the inferior group the remaining `n - split_point`, their
concatenation being exactly the sorted trial sequence; and the values fed to
each group's estimator builder are the group's params with non-finite (NaN)
params excluded, so their count is the number of that group's trials with a
finite param. -/
theorem ask_split_spec (s : TpeOptimizer) (h0 : 0 ≤ s.gamma) (h1 : s.gamma ≤ 1) :
    (s.is_sorted = false → s.askSortStep.trials = sortTrials s.trials) ∧
    (s.is_sorted = true → s.askSortStep.trials = s.trials) ∧
    (sortTrials s.trials).Perm s.trials ∧
    (sortTrials s.trials).Pairwise (fun a b => trialLe a b = true) ∧
    (∀ a b : Trial, trialLe a b = true →
      [a, b].Sublist s.trials → [a, b].Sublist (sortTrials s.trials)) ∧
    s.askSortStep.decide_split_point = (⌈(s.trials.length : ℚ) * s.gamma⌉).toNat ∧
    s.askGroups.1 ++ s.askGroups.2 = s.askSortStep.trials ∧
    s.askGroups.1.length = s.askSortStep.decide_split_point ∧
    s.askGroups.2.length = s.trials.length - s.askSortStep.decide_split_point ∧
    (finiteParams s.askGroups.1).length
      = (s.askGroups.1.filter (fun t => t.param.isFinite)).length ∧
    (finiteParams s.askGroups.2).length
      = (s.askGroups.2.filter (fun t => t.param.isFinite)).length := by
  have hlen := askSortStep_trials_length s
  have hsp : s.askSortStep.decide_split_point
      = (⌈(s.trials.length : ℚ) * s.gamma⌉).toNat := by
    unfold TpeOptimizer.decide_split_point
    rw [hlen, askSortStep_gamma]
  have hsple : s.askSortStep.decide_split_point ≤ s.askSortStep.trials.length := by
    have := split_point_le_length s.askSortStep (by rwa [askSortStep_gamma])
    exact this
  refine ⟨?_, ?_, ?_, ?_, ?_, hsp, ?_, ?_, ?_, finiteParams_length _, finiteParams_length _⟩
  · intro h
    unfold TpeOptimizer.askSortStep
    rw [h]
    simp
  · intro h
    unfold TpeOptimizer.askSortStep
    rw [h]
    simp
  · exact List.mergeSort_perm s.trials trialLe
  · exact List.sorted_mergeSort trialLe_trans trialLe_total s.trials
  · intro a b hab hsub
    exact List.pair_sublist_mergeSort trialLe_trans trialLe_total hab hsub
  · unfold TpeOptimizer.askGroups
    exact List.take_append_drop _ _
  · unfold TpeOptimizer.askGroups
    simpa using Nat.min_eq_left hsple
  · unfold TpeOptimizer.askGroups
    simp [hlen]

/-- Witness for `ask_split_spec` at a concrete three-trial state. -/
theorem ask_split_spec_witness :
    sampleState3.askGroups.1 ++ sampleState3.askGroups.2 = sampleState3.askSortStep.trials :=
  (ask_split_spec sampleState3 (by norm_num [sampleState3, sampleState])
    (by norm_num [sampleState3, sampleState])).2.2.2.2.2.2.1

theorem foldl_maxByKey_spec {α K : Type _} [LinearOrder K] (f : α → K) :
    ∀ (xs : List α) (x : α),
      (∃ pre suf,
        x :: xs = pre ++ (xs.foldl (fun best y => if f best ≤ f y then y else best) x) :: suf ∧
        (∀ y ∈ suf, f y < f (xs.foldl (fun best y => if f best ≤ f y then y else best) x))) ∧
      (∀ y ∈ x :: xs, f y ≤ f (xs.foldl (fun best y => if f best ≤ f y then y else best) x))
  | [], x => by
    refine ⟨⟨[], [], by simp⟩, ?_⟩
    intro y hy
    simp only [List.mem_singleton] at hy
    exact hy ▸ le_refl _
  | y :: ys, x => by
    have ih := foldl_maxByKey_spec f ys (if f x ≤ f y then y else x)
    rw [List.foldl_cons]
    set r := ys.foldl (fun best y => if f best ≤ f y then y else best) (if f x ≤ f y then y else x)
      with hr
    obtain ⟨⟨pre, suf, hdec, hsuf⟩, hmax⟩ := ih
    by_cases hxy : f x ≤ f y
    · rw [if_pos hxy] at hdec hmax hr
      refine ⟨⟨x :: pre, suf, ?_, hsuf⟩, ?_⟩
      · rw [List.cons_append, ← hdec]
      · intro z hz
        rcases List.mem_cons.mp hz with hz | hz
        · exact hz ▸ (hxy.trans (hmax y (List.mem_cons_self _ _)))
        · exact hmax z hz
    · rw [if_neg hxy] at hdec hmax hr
      have hyx : f y < f x := lt_of_not_le hxy
      cases pre with
      | nil =>
        simp only [List.nil_append, List.cons.injEq] at hdec
        obtain ⟨hx, hys⟩ := hdec
        refine ⟨⟨[], y :: ys, by simp [← hx], ?_⟩, ?_⟩
        · intro z hz
          rcases List.mem_cons.mp hz with hz | hz
          · exact hz ▸ (hx ▸ hyx)
          · exact hsuf z (hys ▸ hz)
        · intro z hz
          rcases List.mem_cons.mp hz with hz | hz
          · exact hz ▸ hmax x (List.mem_cons_self _ _)
          · rcases List.mem_cons.mp hz with hz | hz
            · exact hz ▸ le_of_lt (hyx.trans_le (hmax x (List.mem_cons_self _ _)))
            · exact hmax z (List.mem_cons_of_mem _ hz)
      | cons p pre =>
        simp only [List.cons_append, List.cons.injEq] at hdec
        obtain ⟨hp, hys⟩ := hdec
        refine ⟨⟨x :: y :: pre, suf, ?_, hsuf⟩, ?_⟩
        · rw [List.cons_append, List.cons_append, ← hys]
        · intro z hz
          rcases List.mem_cons.mp hz with hz | hz
          · exact hz ▸ hmax x (List.mem_cons_self _ _)
          · rcases List.mem_cons.mp hz with hz | hz
            · exact hz ▸ le_of_lt (hyx.trans_le (hmax x (List.mem_cons_self _ _)))
            · exact hmax z (List.mem_cons_of_mem _ hz)

theorem maxByKey_spec {α K : Type _} [LinearOrder K] (f : α → K) (l : List α) (h : l ≠ []) :
    ∃ r, maxByKey f l = some r ∧
      (∀ y ∈ l, f y ≤ f r) ∧
      ∃ pre suf, l = pre ++ r :: suf ∧ ∀ y ∈ suf, f y < f r := by
  cases l with
  | nil => exact absurd rfl h
  | cons x xs =>
    obtain ⟨⟨pre, suf, hdec, hsuf⟩, hmax⟩ := foldl_maxByKey_spec f xs x
    exact ⟨_, rfl, hmax, pre, suf, hdec, hsuf⟩

theorem askPick_spec {K : Type} [LinearOrder K] [Sub K]
    (supLP infLP : ℚ → K) (cands : List ℚ) (h : cands ≠ []) :
    ∃ r, askPick supLP infLP cands = some r ∧
      r ∈ cands ∧
      (∀ c ∈ cands, supLP c - infLP c ≤ supLP r - infLP r) ∧
      ∃ pre suf, cands = pre ++ r :: suf ∧
        ∀ c ∈ suf, supLP c - infLP c < supLP r - infLP r := by
  have hm : cands.map (fun c => (supLP c - infLP c, c)) ≠ [] := by
    simpa using h
  obtain ⟨p, hpick, hmax, pre, suf, hdec, hsuf⟩ :=
    maxByKey_spec (fun p => p.1) (cands.map (fun c => (supLP c - infLP c, c))) hm
  have hpmem : p ∈ cands.map (fun c => (supLP c - infLP c, c)) := by
    rw [hdec]
    exact List.mem_append_right _ (List.mem_cons_self _ _)
  obtain ⟨c₀, hc₀, hpc⟩ := List.mem_map.mp hpmem
  have hp1 : p.1 = supLP p.2 - infLP p.2 := by
    rw [← hpc]
  have hp2 : p.2 = c₀ := by rw [← hpc]
  obtain ⟨pre', rest, hsplit, hpre', hrest⟩ := List.map_eq_append_iff.mp hdec
  obtain ⟨r', suf', hrest', hr', hsuf'⟩ := List.map_eq_cons_iff.mp hrest
  refine ⟨p.2, ?_, hp2 ▸ hc₀, ?_, pre', suf', ?_, ?_⟩
  · unfold askPick
    rw [hpick]
    rfl
  · intro c hc
    have := hmax (supLP c - infLP c, c) (List.mem_map.mpr ⟨c, hc, rfl⟩)
    rw [hp1] at this
    exact this
  · rw [hsplit, hrest']
    have : p.2 = r' := by rw [← hr']
    rw [this]
  · intro c hc
    have hcm : (supLP c - infLP c, c) ∈ suf := by
      rw [← hsuf']
      exact List.mem_map.mpr ⟨c, hc, rfl⟩
    have := hsuf _ hcm
    rw [hp1] at this
    exact this

/-- C2: on each `ask`, exactly `candidates` samples are drawn from the
superior estimator (given a proposal stream with at least that many accepted
draws); each candidate `x` is scored as the superior log-density at `x`
minus the inferior log-density at `x`; and the returned value is a candidate
achieving the maximum score, ties resolved in favor of the later-generated
candidate: every candidate generated after the winner scores strictly
lower. -/
theorem ask_candidate_selection {K : Type} [LinearOrder K] [Sub K]
    (supLP infLP : ℚ → K) (s : TpeOptimizer) (proposals : List ℚ)
    (hn : 0 < s.candidates)
    (hav : s.candidates ≤ (parzenAccepted s.param_range proposals).length) :
    ((parzenAccepted s.param_range proposals).take s.candidates).length = s.candidates ∧
    ∃ r, s.askParzen supLP infLP proposals = some r ∧
      r ∈ (parzenAccepted s.param_range proposals).take s.candidates ∧
      (∀ c ∈ (parzenAccepted s.param_range proposals).take s.candidates,
        supLP c - infLP c ≤ supLP r - infLP r) ∧
      ∃ pre suf,
        (parzenAccepted s.param_range proposals).take s.candidates = pre ++ r :: suf ∧
        ∀ c ∈ suf, supLP c - infLP c < supLP r - infLP r := by
  have hlen : ((parzenAccepted s.param_range proposals).take s.candidates).length
      = s.candidates := by
    rw [List.length_take]
    exact Nat.min_eq_left hav
  have hne : (parzenAccepted s.param_range proposals).take s.candidates ≠ [] := by
    intro hempty
    rw [hempty] at hlen
    simp at hlen
    omega
  exact ⟨hlen, askPick_spec supLP infLP _ hne⟩

/-- Witness for `ask_candidate_selection` at a concrete state and stream. -/
theorem ask_candidate_selection_witness :
    ((parzenAccepted sampleState1.param_range [1, 2, 3]).take sampleState1.candidates).length
      = sampleState1.candidates :=
  (ask_candidate_selection (K := ℚ) id (fun _ => 0) sampleState1 [1, 2, 3]
    (by norm_num [sampleState1, sampleState])
    (by norm_num [sampleState1, sampleState, parzenAccepted, RangeQ.containsQ])).1

theorem widx_lt : ∀ (ws : List ℚ) (u : ℚ), ws ≠ [] → widx ws u < ws.length
  | [], _, h => absurd rfl h
  | [_], u, _ => by simp [widx]
  | w :: w' :: ws, u, _ => by
    rw [widx]
    split_ifs
    · simp
    · have := widx_lt (w' :: ws) (u - w) (by simp)
      simpa using Nat.succ_lt_succ this

theorem histFold_spec (w : ℚ) :
    ∀ (xs : List ℚ) (probs : List ℚ), (∀ x ∈ xs, floorBin x < probs.length) →
      ∃ probs', xs.foldlM (histStep w) probs = some probs' ∧
        probs'.length = probs.length ∧
        probs'.sum = probs.sum + xs.length * w ∧
        (∀ i, i < probs.length →
          probs'.getD i 0
            = probs.getD i 0 + (xs.countP (fun x => floorBin x = i) : ℚ) * w)
  | [], probs, _ => by
    refine ⟨probs, by simp, rfl, by simp, ?_⟩
    intro i h
    simp
  | x :: xs, probs, hx => by
    have hix : floorBin x < probs.length := hx x (List.mem_cons_self _ _)
    set probs₁ := probs.set (floorBin x) (probs.get ⟨floorBin x, hix⟩ + w) with hp₁
    have hlen₁ : probs₁.length = probs.length := by simp [hp₁]
    obtain ⟨probs', hfold, hlen, hsum, hget⟩ :=
      histFold_spec w xs probs₁
        (fun y hy => hlen₁ ▸ hx y (List.mem_cons_of_mem _ hy))
    refine ⟨probs', ?_, by rw [hlen, hlen₁], ?_, ?_⟩
    · rw [List.foldlM_cons]
      have hstep : histStep w probs x = some probs₁ := by
        simp [histStep, hix, hp₁]
      rw [hstep]
      simpa using hfold
    · rw [hsum]
      have : probs₁.sum = probs.sum + w := by
        rw [hp₁, List.sum_set']
        simp [hix]
      rw [this, List.length_cons]
      push_cast
      ring
    · intro i h
      have h₁ : i < probs₁.length := by omega
      have hrec := hget i h₁
      rw [hrec, List.countP_cons]
      by_cases hi : floorBin x = i
      · have hset : probs₁.getD i 0 = probs.getD i 0 + w := by
          subst hi
          rw [hp₁]
          rw [List.getD_eq_getElem _ _ (by simpa using hix), List.getElem_set_self]
          rw [List.getD_eq_getElem _ _ hix, List.get_eq_getElem]
        rw [hset]
        simp only [hi, decide_eq_true_eq, if_pos rfl]
        push_cast
        ring
      · have hset : probs₁.getD i 0 = probs.getD i 0 := by
          rw [hp₁]
          rw [List.getD_eq_getElem _ _ (by simpa using h),
            List.getElem_set_ne (by simpa using hi), List.getD_eq_getElem _ _ h]
        rw [hset]
        have : (decide (floorBin x = i)) = false := by simpa using hi
        rw [this]
        push_cast
        ring

theorem histFoldM_length (w : ℚ) :
    ∀ (xs : List ℚ) (a b : List ℚ),
      xs.foldlM (histStep w) a = some b → b.length = a.length
  | [], a, b => by
    intro h
    simp only [List.foldlM_nil] at h
    cases h
    rfl
  | x :: xs, a, b => by
    intro hfold
    rw [List.foldlM_cons] at hfold
    unfold histStep at hfold
    split_ifs at hfold with h
    · have := histFoldM_length w xs _ b (by simpa using hfold)
      simpa using this
    · simp at hfold

theorem buildHistogram_length (r : RangeQ) (xs : List ℚ) (probs : List ℚ)
    (h : buildHistogram r xs = some probs) : probs.length = r.cardinality := by
  unfold buildHistogram at h
  have := histFoldM_length _ xs _ probs h
  simpa using this

theorem cardinality_pos (r : RangeQ) (hr : r.start < r.endv) : 0 < r.cardinality := by
  unfold RangeQ.cardinality
  have hw : 0 < r.width := by
    unfold RangeQ.width
    linarith
  have : (1 : ℤ) ≤ ⌈r.width⌉ := by
    exact_mod_cast Int.le_ceil_iff.mpr (by push_cast; linarith)
  omega

/-- C7: histogram building uses `cardinality = ceil(range.width)` bins and
effective total count `n = #samples + cardinality`; every bin starts at `1/n`
and the bin at each sample's floor gains `1/n`, so bin `i` holds
`(1 + count_i)/n` and the vector sums to 1; and `log_pdf(x)` returns the raw
bin probability at `floor(x)` — a probability, not a logarithm. -/
theorem buildHistogram_spec (r : RangeQ) (xs : List ℚ)
    (hr : r.start < r.endv)
    (hx : ∀ x ∈ xs, 0 ≤ ⌊x⌋ ∧ ⌊x⌋ < (r.cardinality : ℤ)) :
    ∃ probs, buildHistogram r xs = some probs ∧
      r.cardinality = (⌈r.width⌉).toNat ∧
      probs.length = r.cardinality ∧
      (∀ i, i < r.cardinality →
        probs.getD i 0
          = (1 + (xs.countP (fun x => floorBin x = i) : ℚ))
              / ((xs.length : ℚ) + (r.cardinality : ℚ))) ∧
      probs.sum = 1 ∧
      (∀ x, floorBin x < probs.length →
        histLogPdf probs x = some (probs.getD (floorBin x) 0)) := by
  have hcard : 0 < r.cardinality := cardinality_pos r hr
  have hx' : ∀ x ∈ xs, floorBin x < (List.replicate r.cardinality
      ((1 : ℚ) / ((xs.length + r.cardinality : ℕ) : ℚ))).length := by
    intro x hxm
    rw [List.length_replicate]
    have := hx x hxm
    unfold floorBin
    omega
  have hn : ((xs.length + r.cardinality : ℕ) : ℚ) ≠ 0 := by
    have h1 : xs.length + r.cardinality ≠ 0 := by omega
    exact_mod_cast h1
  obtain ⟨probs, hfold, hlen, hsum, hget⟩ :=
    histFold_spec ((1 : ℚ) / ((xs.length + r.cardinality : ℕ) : ℚ)) xs
      (List.replicate r.cardinality ((1 : ℚ) / ((xs.length + r.cardinality : ℕ) : ℚ))) hx'
  rw [List.length_replicate] at hlen
  refine ⟨probs, ?_, rfl, hlen, ?_, ?_, ?_⟩
  · unfold buildHistogram
    exact hfold
  · intro i hi
    have hgi := hget i (by simpa using hi)
    rw [hgi, List.getD_eq_getElem _ _ (by simpa using hi), List.getElem_replicate]
    push_cast
    field_simp
  · rw [hsum, List.sum_replicate, nsmul_eq_mul]
    push_cast
    field_simp
    ring
  · intro x hfx
    simp [histLogPdf, hfx, List.getD_eq_getElem _ _ hfx]

/-- Witness for `buildHistogram_spec` on the categorical range `[0, 3)` with
samples `1/2` and `2`. -/
theorem buildHistogram_spec_witness :
    ∃ probs, buildHistogram ⟨0, 3⟩ [1/2, 2] = some probs ∧ probs.sum = 1 := by
  obtain ⟨probs, h1, _, _, _, h5, _⟩ :=
    buildHistogram_spec ⟨0, 3⟩ [1/2, 2] (by norm_num)
      (by
        intro x hx
        fin_cases hx <;> norm_num [RangeQ.cardinality, RangeQ.width])
  exact ⟨probs, h1, h5⟩

theorem askPick_mem {K : Type} [LinearOrder K] [Sub K]
    (supLP infLP : ℚ → K) (cands : List ℚ) (v : ℚ)
    (h : askPick supLP infLP cands = some v) : v ∈ cands := by
  cases cands with
  | nil => simp [askPick, maxByKey] at h
  | cons c cs =>
    obtain ⟨r, hr, hrmem, _⟩ := askPick_spec supLP infLP (c :: cs) (by simp)
    rw [hr] at h
    injection h with h
    exact h ▸ hrmem

/-- C4: for every trial history (including zero trials), whenever `ask`
returns a value: under the Parzen strategy the value satisfies
`range.contains` (rejection sampling accepts only in-range draws); under the
Histogram strategy the value is an integer-valued number in
`[0, cardinality)` (a sampled bin index cast to a float). -/
theorem ask_result_support {K : Type} [LinearOrder K] [Sub K] (supLP infLP : ℚ → K) :
    (∀ (s : TpeOptimizer) (proposals : List ℚ) (v : ℚ),
      s.askParzen supLP infLP proposals = some v →
      s.param_range.containsQ v = true) ∧
    (∀ (s : TpeOptimizer) (draws : List ℚ) (v : ℚ),
      s.param_range.start < s.param_range.endv →
      s.askHistogram supLP infLP draws = some v →
      ∃ i : ℕ, v = (i : ℚ) ∧ i < s.param_range.cardinality) := by
  constructor
  · intro s proposals v h
    unfold TpeOptimizer.askParzen at h
    have hmem := askPick_mem supLP infLP _ v h
    have hmem' : v ∈ parzenAccepted s.param_range proposals :=
      List.take_subset _ _ hmem
    unfold parzenAccepted at hmem'
    exact (List.mem_filter.mp hmem').2
  · intro s draws v hr h
    unfold TpeOptimizer.askHistogram at h
    cases hbuild : buildHistogram s.param_range (finiteParams s.askGroups.1) with
    | none => rw [hbuild] at h; simp at h
    | some probs =>
      rw [hbuild] at h
      have hmem := askPick_mem supLP infLP _ v h
      obtain ⟨u, _, hv⟩ := List.mem_map.mp hmem
      refine ⟨widx probs u, hv.symm, ?_⟩
      have hlen := buildHistogram_length _ _ _ hbuild
      have hne : probs ≠ [] := by
        intro hnil
        rw [hnil] at hlen
        have := cardinality_pos s.param_range hr
        simp at hlen
        omega
      have := widx_lt probs u hne
      omega

/-- Witness for `ask_result_support`: both strategies at concrete states,
with a Parzen proposal stream `[1, 2]` and a Histogram draw stream
`[1/4]`. -/
theorem ask_result_support_witness :
    sampleState1.param_range.containsQ 2 = true ∧
    (∃ i : ℕ, (0 : ℚ) = (i : ℚ) ∧ i < sampleStateH.param_range.cardinality) := by
  constructor
  · exact (ask_result_support (K := ℚ) id (fun _ => 0)).1 sampleState1 [1, 2] 2
      (by norm_num [TpeOptimizer.askParzen, parzenAccepted, askPick, maxByKey,
        sampleState1, sampleState, RangeQ.containsQ])
  · exact (ask_result_support (K := ℚ) id (fun _ => 0)).2 sampleStateH [1/4] 0
      (by norm_num [sampleStateH])
      (by norm_num [sampleStateH, TpeOptimizer.askHistogram, buildHistogram,
        RangeQ.cardinality, RangeQ.width, TpeOptimizer.askGroups, TpeOptimizer.askSortStep,
        sortTrials, TpeOptimizer.decide_split_point, finiteParams, askPick, maxByKey, widx,
        List.mergeSort, histStep, floorBin, show Int.toNat 2 = 2 from rfl])

theorem qle_trans (a b c : ℚ) : qle a b → qle b c → qle a c := by
  simp only [qle, decide_eq_true_eq]
  exact le_trans

theorem qle_total (a b : ℚ) : qle a b || qle b a := by
  simp [qle, le_total]

/-- C5: in Parzen building the mixture components are the samples plus one
synthetic prior at the range midpoint, sorted ascending by mean; each
component's stddev is the larger of its two neighbour gaps (with the range
endpoints as virtual neighbours), except the first and last components whose
stddev is the single adjacent inward gap (when there are at least two
components); and every stddev is clamped into
`[width / min(100, 1 + n), width]` where `n` is the component count. -/
theorem buildParzen_stddev_spec (r : RangeQ) (xs : List ℚ) :
    (buildParzen r xs).1.Perm (xs ++ [(r.start + r.endv) * (1 / 2)]) ∧
    (buildParzen r xs).1.Pairwise (· ≤ ·) ∧
    (buildParzen r xs).1.length = xs.length + 1 ∧
    (buildParzen r xs).2.length = (buildParzen r xs).1.length ∧
    (∀ i, i < (buildParzen r xs).1.length →
      (buildParzen r xs).2.getD i 0
        = min (max (specStddev r (buildParzen r xs).1 i)
            (minStddev r (buildParzen r xs).1.length))
          (maxStddev r)) := by
  have h1 : (buildParzen r xs).1 = (xs ++ [(r.start + r.endv) * (1 / 2)]).mergeSort qle := rfl
  have h2 : (buildParzen r xs).2 = setupStddev r (buildParzen r xs).1 := rfl
  refine ⟨h1 ▸ List.mergeSort_perm _ qle, ?_, ?_, ?_, ?_⟩
  · rw [h1]
    exact (List.sorted_mergeSort qle_trans qle_total _).imp
      (fun hab => by simpa [qle] using hab)
  · rw [h1]
    simp
  · rw [h2]
    simp only [setupStddev]
    split_ifs <;> simp
  · intro i hi
    rw [h2]
    simp only [setupStddev]
    generalize hM : (buildParzen r xs).1 = means at hi
    by_cases h2n : 2 ≤ means.length
    · rw [if_pos h2n]
      have hsetlen :
          ((((List.range means.length).map (rawStddev r means)).set 0
              (means.getD 1 0 - means.getD 0 0)).set (means.length - 1)
            (means.getD (means.length - 1) 0 - means.getD (means.length - 2) 0)).length
          = means.length := by
        simp
      rw [List.getD_eq_getElem _ _ (by simpa [hsetlen] using hi), List.getElem_map]
      have hib :
          i < ((((List.range means.length).map (rawStddev r means)).set 0
              (means.getD 1 0 - means.getD 0 0)).set (means.length - 1)
            (means.getD (means.length - 1) 0 - means.getD (means.length - 2) 0)).length := by
        omega
      have hadji :
          ((((List.range means.length).map (rawStddev r means)).set 0
              (means.getD 1 0 - means.getD 0 0)).set (means.length - 1)
            (means.getD (means.length - 1) 0 - means.getD (means.length - 2) 0))[i]
          = specStddev r means i := by
        rw [List.getElem_set, List.getElem_set, List.getElem_map, List.getElem_range]
        simp only [specStddev, rawStddev]
        split_ifs <;> first | rfl | (exfalso; omega)
      rw [hadji]
    · rw [if_neg h2n]
      rw [List.getD_eq_getElem _ _ (by simpa using hi), List.getElem_map]
      have hib : i < ((List.range means.length).map (rawStddev r means)).length := by
        simpa using hi
      have hbi :
          ((List.range means.length).map (rawStddev r means))[i]
          = specStddev r means i := by
        rw [List.getElem_map, List.getElem_range]
        simp only [specStddev, rawStddev]
        split_ifs <;> first | rfl | (exfalso; omega)
      rw [hbi]

theorem exp_sum_pos (l : List ℝ) (h : l ≠ []) : 0 < ((l.map Real.exp).sum) := by
  cases l with
  | nil => exact absurd rfl h
  | cons x xs =>
    apply List.sum_pos
    · intro a ha
      obtain ⟨b, _, hb⟩ := List.mem_map.mp ha
      exact hb ▸ Real.exp_pos b
    · simp

/-- The stable log-sum-exp computes the true log-sum-exp. -/
theorem logsumexp_eq (xs : List ℝ) (h : xs ≠ []) :
    logsumexp xs = Real.log ((xs.map Real.exp).sum) := by
  cases xs with
  | nil => exact absurd rfl h
  | cons x l =>
    simp only [logsumexp]
    have hmap : (x :: l).map (fun a => Real.exp (a - l.foldl max x))
        = (x :: l).map (fun a => Real.exp a * Real.exp (-(l.foldl max x))) := by
      apply List.map_congr_left
      intro a _
      rw [← Real.exp_add]
      ring_nf
    rw [hmap]
    have hfac : ((x :: l).map (fun a => Real.exp a * Real.exp (-(l.foldl max x)))).sum
        = ((x :: l).map Real.exp).sum * Real.exp (-(l.foldl max x)) := by
      rw [← List.sum_map_mul_right]
    rw [hfac, Real.log_mul (ne_of_gt (exp_sum_pos _ (by simp))) (Real.exp_ne_zero _),
      Real.log_exp]
    ring

theorem normalPdf_eq_gaussian (μ σ : ℝ) (hσ : 0 < σ) :
    normalPdf μ σ = ProbabilityTheory.gaussianPDFReal μ ⟨σ ^ 2, sq_nonneg σ⟩ := by
  funext x
  unfold normalPdf ProbabilityTheory.gaussianPDFReal
  have h2π : (0 : ℝ) ≤ 2 * Real.pi := by positivity
  have hs : Real.sqrt (2 * Real.pi * σ ^ 2) = Real.sqrt (2 * Real.pi) * σ := by
    rw [Real.sqrt_mul h2π, Real.sqrt_sq hσ.le]
  simp only [NNReal.coe_mk]
  rw [hs]

theorem normalPdf_integrable (μ σ : ℝ) (hσ : 0 < σ) :
    MeasureTheory.Integrable (normalPdf μ σ) := by
  rw [normalPdf_eq_gaussian μ σ hσ]
  exact ProbabilityTheory.integrable_gaussianPDFReal μ _

theorem normalPdf_pos (μ σ : ℝ) (hσ : 0 < σ) (x : ℝ) : 0 < normalPdf μ σ x := by
  unfold normalPdf
  have h1 : 0 < Real.sqrt (2 * Real.pi) := Real.sqrt_pos.mpr (by positivity)
  positivity

theorem cdf_diff_eq_mass (s : NormalR) (hσ : 0 < s.stddev) (a b : ℝ) (hab : a ≤ b) :
    s.cdf b - s.cdf a = ∫ t in Set.Ico a b, normalPdf s.mean s.stddev t := by
  have hint := normalPdf_integrable s.mean s.stddev hσ
  have hsplit : (∫ t in Set.Iic b, normalPdf s.mean s.stddev t)
      = (∫ t in Set.Iic a, normalPdf s.mean s.stddev t)
        + ∫ t in Set.Ioc a b, normalPdf s.mean s.stddev t := by
    rw [← MeasureTheory.setIntegral_union (Set.Iic_disjoint_Ioc le_rfl)
      measurableSet_Ioc hint.integrableOn hint.integrableOn,
      Set.Iic_union_Ioc_eq_Iic hab]
  unfold NormalR.cdf
  rw [hsplit, MeasureTheory.integral_Ioc_eq_integral_Ioo,
    ← MeasureTheory.integral_Ico_eq_integral_Ioo]
  ring

theorem mass_pos (μ σ : ℝ) (hσ : 0 < σ) (a b : ℝ) (hab : a < b) :
    0 < ∫ t in Set.Ico a b, normalPdf μ σ t := by
  have hint := normalPdf_integrable μ σ hσ
  have h1 : (∫ t in Set.Ico a b, normalPdf μ σ t) = ∫ t in a..b, normalPdf μ σ t := by
    rw [intervalIntegral.integral_of_le hab.le,
      MeasureTheory.integral_Ioc_eq_integral_Ioo,
      ← MeasureTheory.integral_Ico_eq_integral_Ioo]
  rw [h1]
  exact intervalIntegral.intervalIntegral_pos_of_pos hint.intervalIntegrable
    (normalPdf_pos μ σ hσ) hab

/-- C6: for a built Parzen estimator, `p_accept` is the average over the
components of the probability mass each component's untruncated normal
distribution places inside `[start, end)`, and `log_pdf(x)` equals the
log-sum-exp — computed exactly as in the code, by subtracting the running
maximum before exponentiating, summing, taking the log and adding the
maximum back — of `component_log_pdf(x) + log(1/n) - log(p_accept)` over the
components; moreover that stable computation equals the straightforward
log of the sum of exponentials. -/
theorem parzen_log_pdf_spec (samples : List NormalR) (r : RangeR) (x : ℝ)
    (hne : samples ≠ []) (hσ : ∀ s ∈ samples, 0 < s.stddev)
    (hr : r.start < r.endv) :
    pAccept samples r
      = (samples.map (fun s =>
          ∫ t in Set.Ico r.start r.endv, normalPdf s.mean s.stddev t)).sum
        / (samples.length : ℝ) ∧
    ParzenEstimatorR.log_pdf ⟨samples, pAccept samples r⟩ x
      = logsumexp (samples.map (fun s =>
          s.ln_pdf x + Real.log (1 / (samples.length : ℝ))
            - Real.log (pAccept samples r))) ∧
    ParzenEstimatorR.log_pdf ⟨samples, pAccept samples r⟩ x
      = Real.log ((samples.map (fun s =>
          Real.exp (s.ln_pdf x + Real.log (1 / (samples.length : ℝ))
            - Real.log (pAccept samples r)))).sum) := by
  have hmass : pAccept samples r
      = (samples.map (fun s =>
          ∫ t in Set.Ico r.start r.endv, normalPdf s.mean s.stddev t)).sum
        / (samples.length : ℝ) := by
    unfold pAccept
    congr 1
    congr 1
    apply List.map_congr_left
    intro s hs
    exact cdf_diff_eq_mass s (hσ s hs) r.start r.endv hr.le
  have hnlen : 0 < samples.length := List.length_pos.mpr hne
  have hnQ : (0 : ℝ) < (samples.length : ℝ) := by exact_mod_cast hnlen
  have hppos : 0 < pAccept samples r := by
    rw [hmass]
    apply div_pos _ hnQ
    apply List.sum_pos
    · intro m hm
      obtain ⟨s, hs, hsm⟩ := List.mem_map.mp hm
      exact hsm ▸ mass_pos s.mean s.stddev (hσ s hs) r.start r.endv hr
    · simpa using hne
  have hterms : samples.map (fun s =>
        s.ln_pdf x + Real.log ((1 / (samples.length : ℝ)) / pAccept samples r))
      = samples.map (fun s =>
        s.ln_pdf x + Real.log (1 / (samples.length : ℝ))
          - Real.log (pAccept samples r)) := by
    apply List.map_congr_left
    intro s _
    rw [Real.log_div (by positivity) (ne_of_gt hppos)]
    ring
  have hlog : ParzenEstimatorR.log_pdf ⟨samples, pAccept samples r⟩ x
      = logsumexp (samples.map (fun s =>
          s.ln_pdf x + Real.log (1 / (samples.length : ℝ))
            - Real.log (pAccept samples r))) := by
    unfold ParzenEstimatorR.log_pdf
    rw [← hterms]
  refine ⟨hmass, hlog, ?_⟩
  rw [hlog, logsumexp_eq _ (by simpa using hne), List.map_map]
  rfl

/-- Witness for `parzen_log_pdf_spec`: the standard normal component over
the range `[0, 1)` at the point 0. -/
theorem parzen_log_pdf_spec_witness :
    ParzenEstimatorR.log_pdf ⟨[⟨0, 1⟩], pAccept [⟨0, 1⟩] ⟨0, 1⟩⟩ 0
      = logsumexp (([⟨0, 1⟩] : List NormalR).map (fun s =>
          s.ln_pdf 0 + Real.log (1 / (([⟨0, 1⟩] : List NormalR).length : ℝ))
            - Real.log (pAccept [⟨0, 1⟩] ⟨0, 1⟩))) :=
  (parzen_log_pdf_spec [⟨0, 1⟩] ⟨0, 1⟩ 0 (by simp)
    (by
      intro s hs
      simp only [List.mem_singleton] at hs
      subst hs
      norm_num)
    (by norm_num)).2.1

/-- Witness for `buildParzen_stddev_spec`: the clamp formula at the first
component of a two-component estimator. -/
theorem buildParzen_stddev_spec_witness :
    (buildParzen ⟨0, 10⟩ [3]).2.getD 0 0
      = min (max (specStddev ⟨0, 10⟩ (buildParzen ⟨0, 10⟩ [3]).1 0)
          (minStddev ⟨0, 10⟩ (buildParzen ⟨0, 10⟩ [3]).1.length))
        (maxStddev ⟨0, 10⟩) :=
  (buildParzen_stddev_spec ⟨0, 10⟩ [3]).2.2.2.2 0 (by simp [buildParzen])
